import Mathlib

/-!
Verification of the nextpnr Router2 routing core and the parallel SA
placement refiner, shallowly embedded from the C++ sources.

Conventions of the embedding:
* `WireId` and `PipId` are modelled as `Nat`; the null `PipId()` is
  modelled as `none : Option Nat`.
* C++ `float`/`double` arithmetic on costs is modelled by exact rational
  arithmetic (`Rat`); machine integers by `Int`.
* `std::unordered_map` is modelled by an association list whose keys are
  kept nodup by the operations (insert updates in place, erase filters).
* Device-model (Arch API) queries, which the spec treats as an external
  collaborator, are fields of `DevCtx`.
-/

/-- Association-list lookup for `bound_nets : net udata -> (refcount, pip)`. -/
def lookupNet (bn : List (Nat × Int × Option Nat)) (k : Nat) : Option (Int × Option Nat) :=
  match bn with
  | [] => none
  | e :: rest => if e.1 = k then some e.2 else lookupNet rest k

/-- Per-wire routing state, from `Router2::PerWireData`:
`bound_nets` maps a net udata to its (arc refcount, driving pip);
`hist_cong_cost` is the historical congestion cost (starts at 1.0);
`unavailable` marks wires locked to another arc;
`reserved_net` is -1 or the udata of the only net allowed on the wire. -/
structure PerWireData where
  bound_nets : List (Nat × Int × Option Nat)
  hist_cong_cost : Rat
  unavailable : Bool
  reserved_net : Int
deriving DecidableEq

/-- `Router2::present_wire_cost`: 1 if no other source uses the wire, else
`1 + other_sources * curr_cong_weight` (ccw). -/
def present_wire_cost (ccw : Rat) (w : PerWireData) (net_uid : Nat) : Rat :=
  let other_sources : Int :=
    (w.bound_nets.length : Int) - (if (lookupNet w.bound_nets net_uid).isSome then 1 else 0)
  if other_sources = 0 then 1 else 1 + (other_sources : Rat) * ccw

/-- Statistics accumulated by `Router2::update_congestion`. -/
structure CongStats where
  total_wire_use : Int
  overused_wires : Int
  total_overuse : Int
  failed_nets : List Nat
deriving DecidableEq

/-- Per-wire part of `Router2::update_congestion`: if the wire's overuse
`bound_nets.size() - 1` is positive, add `overuse * hist_cong_weight` (hw)
to the historical congestion cost. -/
def updWire (hw : Rat) (w : PerWireData) : PerWireData :=
  if ((w.bound_nets.length : Int) - 1) > 0 then
    { w with hist_cong_cost :=
        w.hist_cong_cost + (((w.bound_nets.length : Int) - 1 : Int) : Rat) * hw }
  else w

/-- `Router2::update_congestion`, over the wire map as a list of
(wire, PerWireData) entries: resets the statistics, then for every wire
accumulates total use, and for every overused wire bumps its history cost,
counts the overuse and inserts every net bound on it into the failed set. -/
def update_congestion (hw : Rat) :
    List (Nat × PerWireData) → List (Nat × PerWireData) × CongStats
  | [] => ([], ⟨0, 0, 0, []⟩)
  | (k, w) :: rest =>
    let r := update_congestion hw rest
    let overuse : Int := (w.bound_nets.length : Int) - 1
    if overuse > 0 then
      ((k, updWire hw w) :: r.1,
        ⟨r.2.total_wire_use + w.bound_nets.length, r.2.overused_wires + 1,
         r.2.total_overuse + overuse, w.bound_nets.map (fun e => e.1) ++ r.2.failed_nets⟩)
    else
      ((k, updWire hw w) :: r.1,
        ⟨r.2.total_wire_use + w.bound_nets.length, r.2.overused_wires,
         r.2.total_overuse, r.2.failed_nets⟩)

/-- The device-model (Arch API) surface used by the router, per spec section 6.
Delays are already `maxDelay()` projections; `delayNS` is `getDelayNS`;
`rng` models the deterministic RNG as a stream indexed by the call counter. -/
structure DevCtx where
  pipsUphill : Nat → List Nat
  pipsDownhill : Nat → List Nat
  pipSrc : Nat → Nat
  pipDst : Nat → Nat
  pipLoc : Nat → Int × Int
  checkPipAvail : Nat → Bool
  boundPipNet : Nat → Option Nat
  pipDelay : Option Nat → Rat
  wireDelay : Nat → Rat
  eps : Rat
  delayNS : Rat → Rat
  estimateDelay : Nat → Nat → Rat
  rng : Nat → Int

/-- Per-net metadata read by the cost functions: centroid `cx, cy`,
half-perimeter wirelength `hpwl` and the fanout `users.size()`. -/
structure NetMeta where
  cx : Int
  cy : Int
  hpwl : Int
  nusers : Nat

/-- The state a `Router2` arc-routing call works over: the device model,
the wire map (`wires.at` is total on the modelled id space), the routed
net's udata, source and sink wires, net metadata, the current congestion
weight `curr_cong_weight` and the arc bounding box `ad.bb`. -/
structure REnv where
  dev : DevCtx
  wires : Nat → PerWireData
  netu : Nat
  src : Nat
  dst : Nat
  nm : NetMeta
  ccw : Rat
  bbx0 : Int
  bbx1 : Int
  bby0 : Int
  bby1 : Int

/-- The `base_cost` term of `Router2::score_wire_for_arc`:
`getDelayNS(getPipDelay(pip).maxDelay() + getWireDelay(wire).maxDelay()
+ getDelayEpsilon())`. -/
def baseCost (E : REnv) (wire : Nat) (pip : Option Nat) : Rat :=
  E.dev.delayNS (E.dev.pipDelay pip + E.dev.wireDelay wire + E.dev.eps)

/-- The `bias_cost` term of `Router2::score_wire_for_arc`: 0 for a null pip,
else `0.5 * (base_cost / fanout) * ((|pl.x - cx| + |pl.y - cy|) / hpwl)`. -/
def biasCost (E : REnv) (wire : Nat) (pip : Option Nat) : Rat :=
  match pip with
  | none => 0
  | some p =>
    let pl := E.dev.pipLoc p
    (1/2 : Rat) * (baseCost E wire pip / (E.nm.nusers : Rat)) *
      (((|pl.1 - E.nm.cx| + |pl.2 - E.nm.cy| : Int) : Rat) / (E.nm.hpwl : Rat))

/-- The `source_uses` computation shared by `score_wire_for_arc` and
`get_togo_cost`: the net's arc refcount on the wire, 0 when absent. -/
def sourceUses (bn : List (Nat × Int × Option Nat)) (netu : Nat) : Int :=
  match lookupNet bn netu with
  | some rp => rp.1
  | none => 0

/-- `Router2::score_wire_for_arc`: congestion-aware cost of stepping onto
`wire` through `pip` while routing net `E.netu`. -/
def score_wire_for_arc (E : REnv) (wire : Nat) (pip : Option Nat) : Rat :=
  let wd := E.wires wire
  let present_cost := present_wire_cost E.ccw wd E.netu
  let hist_cost := wd.hist_cong_cost
  let source_uses : Int := sourceUses wd.bound_nets E.netu
  baseCost E wire pip * hist_cost * present_cost / (1 + (source_uses : Rat))
    + biasCost E wire pip

/-- `Router2::get_togo_cost`: admissible-ish remaining cost from `wire` to
`sink`, discounted by this net's existing use of `wire`. -/
def get_togo_cost (E : REnv) (wire sink : Nat) : Rat :=
  let wd := E.wires wire
  let source_uses : Int := sourceUses wd.bound_nets E.netu
  let ipin_cost := E.dev.delayNS (E.dev.wireDelay sink + E.dev.eps)
  max 0 (E.dev.delayNS (E.dev.estimateDelay wire sink) - ipin_cost) / (1 + (source_uses : Rat))
    + ipin_cost

/-- `Router2::bind_pip_internal` restricted to the wire's `bound_nets` map:
`operator[]` default-constructs a (0, null) slot, the refcount is
incremented, and the driving pip is recorded on first bind or asserted
equal afterwards.  `none` models a failed `NPNR_ASSERT`. -/
def mapBind (bn : List (Nat × Int × Option Nat)) (netu : Nat) (pip : Option Nat) :
    Option (List (Nat × Int × Option Nat)) :=
  match lookupNet bn netu with
  | none => some (bn ++ [(netu, 1, pip)])
  | some (r, p0) =>
    if r + 1 = 1 then
      some (bn.map (fun e => if e.1 = netu then (netu, 1, pip) else e))
    else if p0 = pip then
      some (bn.map (fun e => if e.1 = netu then (netu, r + 1, p0) else e))
    else none

/-- `Router2::unbind_pip_internal` restricted to the wire's `bound_nets`
map: `operator[]` default-constructs a (0, null) slot, the refcount is
decremented, and the entry is erased exactly when the refcount hits 0. -/
def mapUnbind (bn : List (Nat × Int × Option Nat)) (netu : Nat) :
    List (Nat × Int × Option Nat) :=
  match lookupNet bn netu with
  | none => bn ++ [(netu, -1, none)]
  | some (r, p0) =>
    if r - 1 = 0 then bn.filter (fun e => e.1 ≠ netu)
    else bn.map (fun e => if e.1 = netu then (netu, r - 1, p0) else e)

/-- Well-formedness of a `bound_nets` map: keys are nodup and every
refcount is at least 1 (the invariant of claim C10). -/
def WFbn (bn : List (Nat × Int × Option Nat)) : Prop :=
  (bn.map (fun e => e.1)).Nodup ∧ ∀ e ∈ bn, 1 ≤ e.2.1

/-! ### Binding strengths and the arch-commit unbind phase (claims C4, C5)

The `PlaceStrength` enum lives in the nextpnr headers, which are not part
of the covered sources; the spec fixes only the ordering
`WEAK < STRONG < USER`.  Modelled from the spec: strengths are naturals
with that ordering, with `NONE` below `WEAK` and `FIXED` between `STRONG`
and `USER`. -/

def STRENGTH_NONE : Nat := 0

/-- Modelled from the spec: `STRENGTH_WEAK`, below `STRENGTH_STRONG`. -/
def STRENGTH_WEAK : Nat := 1

/-- Modelled from the spec: `STRENGTH_STRONG`, between WEAK and USER. -/
def STRENGTH_STRONG : Nat := 2

/-- Modelled from the spec: a strength above `STRENGTH_STRONG` (pre-routed
"strongly", e.g. fixed clocks). -/
def STRENGTH_FIXED : Nat := 3

/-- Modelled from the spec: `STRENGTH_USER`, the strongest binding. -/
def STRENGTH_USER : Nat := 4

/-- The per-net wire collection of `Router2::bind_and_check_all`:
`net_wires` receives every wire of `net->wires` whose binding strength is
at most `STRENGTH_STRONG`. -/
def collect_net_wires (netWires : List (Nat × Nat)) : List Nat :=
  (netWires.filter (fun p => p.2 ≤ STRENGTH_STRONG)).map (fun p => p.1)

/-- The unbind phase of `Router2::bind_and_check_all` for one net:
`ctx->unbindWire(w)` for every collected wire, over a device binding
table modelled as (wire, net udata, strength) rows. -/
def unbind_phase (table : List (Nat × Nat × Nat)) (netWires : List (Nat × Nat)) :
    List (Nat × Nat × Nat) :=
  (collect_net_wires netWires).foldl
    (fun t w => t.filter (fun e => e.1 ≠ w)) table

/-! ### `Router2::setup_nets` (claim C9) -/

/-- An arc bounding box (`ArcBounds`). -/
structure ABounds where
  x0 : Int
  x1 : Int
  y0 : Int
  y1 : Int
deriving DecidableEq

/-- `std::numeric_limits<int>::max()` for the 32-bit ints of the source. -/
def cINT_MAX : Int := 2147483647

/-- `std::numeric_limits<int>::min()` for the 32-bit ints of the source. -/
def cINT_MIN : Int := -2147483648

/-- One user pin of a net as `setup_nets` sees it: the sink wire (if the
port has one) and the bel location of the user cell. -/
structure UserIn where
  dst_wire : Option Nat
  ux : Int
  uy : Int

/-- A net as `setup_nets` sees it: whether `driver.cell` is non-null, the
wire of the driver port (`getNetinfoSourceWire`), the driver bel location
and the user pins. -/
structure NetIn where
  has_driver : Bool
  src_wire : Option Nat
  dx : Int
  dy : Int
  users : List UserIn

/-- The per-net data `setup_nets` populates. -/
structure PerNetMeta where
  arcs : List ABounds
  bb : ABounds
  cx : Int
  cy : Int
  hpwl : Int
deriving DecidableEq

/-- The user loop of `Router2::setup_nets`: for each user pin compute the
effective source wire (the sink wire when the net is undriven), fail when
either wire is missing, fetch the arc bounding box from the device, fold
it into the net bounding box and add the user location to the centroid
accumulator. -/
def setup_net_go (bbOf : Nat → Nat → ABounds) (hasDrv : Bool) (srcw : Option Nat) :
    List UserIn → ABounds → Int → Int → List ABounds →
    Except Unit (ABounds × Int × Int × List ABounds)
  | [], bb, cx, cy, arcs => .ok (bb, cx, cy, arcs)
  | u :: rest, bb, cx, cy, arcs =>
    let src_eff := if hasDrv then srcw else u.dst_wire
    match src_eff with
    | none => .error ()
    | some s =>
      match u.dst_wire with
      | none => .error ()
      | some d =>
        let ab := bbOf s d
        setup_net_go bbOf hasDrv srcw rest
          ⟨min bb.x0 ab.x0, max bb.x1 ab.x1, min bb.y0 ab.y0, max bb.y1 ab.y1⟩
          (cx + u.ux) (cy + u.uy) (arcs ++ [ab])

/-- `Router2::setup_nets` for one net: seed the bounding box with the
int sentinels, seed the centroid with the driver location, run the user
loop, then compute `hpwl = max(|dy| + |dx|, 1)` and the truncating
integer average of the centroid over `users + 1`. -/
def setup_net (bbOf : Nat → Nat → ABounds) (ni : NetIn) : Except Unit PerNetMeta :=
  let cx0 : Int := if ni.has_driver then ni.dx else 0
  let cy0 : Int := if ni.has_driver then ni.dy else 0
  match setup_net_go bbOf ni.has_driver ni.src_wire ni.users
      ⟨cINT_MAX, cINT_MIN, cINT_MAX, cINT_MIN⟩ cx0 cy0 [] with
  | .error e => .error e
  | .ok (bb, cx, cy, arcs) =>
    .ok { arcs := arcs, bb := bb,
          cx := Int.tdiv cx ((ni.users.length : Int) + 1),
          cy := Int.tdiv cy ((ni.users.length : Int) + 1),
          hpwl := max (|bb.y1 - bb.y0| + |bb.x1 - bb.x0|) 1 }

/-- `true` on the non-error branch of an `Except` result. -/
def exceptOk (r : Except Unit PerNetMeta) : Bool :=
  match r with
  | .ok _ => true
  | .error _ => false

/-! ### `Router2::route_net` scheduling loop (claim C4) -/

/-- `Router2::ArcRouteResult`, with the C++ enumerator values. -/
inductive ArcRouteResult where
  | ARC_SUCCESS
  | ARC_RETRY_WITHOUT_BB
  | ARC_FATAL
deriving DecidableEq

/-- The C++ integer value of each enumerator. -/
def ArcRouteResult.toInt : ArcRouteResult → Int
  | .ARC_SUCCESS => 0
  | .ARC_RETRY_WITHOUT_BB => 1
  | .ARC_FATAL => 2

/-- The C++ implicit conversion applied when `route_net` (declared `bool`)
executes `return ARC_SUCCESS;`: an enumerator converts to `true` iff its
value is nonzero. -/
def cppBoolOfArc (r : ArcRouteResult) : Bool :=
  r.toInt ≠ 0

/-- The arc-scheduling loop at the top of `Router2::route_net`: each user
pin is (already-routed?, sink wire); a legally routed arc is kept; an arc
whose sink wire is pre-bound in `net->wires` with strength above
`STRENGTH_STRONG` makes the whole function `return ARC_SUCCESS;`
(converted to `bool`); otherwise the arc is ripped up and scheduled.
Returns (early return value if any, ripped-and-scheduled user indices). -/
def route_net_sched (netWires : List (Nat × Nat)) :
    List (Bool × Nat) → List Nat → Nat → Option Bool × List Nat
  | [], ripped, _ => (none, ripped)
  | (routed, dstw) :: rest, ripped, j =>
    if routed then route_net_sched netWires rest ripped (j + 1)
    else
      match netWires.find? (fun p => p.1 = dstw) with
      | some p =>
        if p.2 > STRENGTH_STRONG then (some (cppBoolOfArc .ARC_SUCCESS), ripped)
        else route_net_sched netWires rest (ripped ++ [j]) (j + 1)
      | none => route_net_sched netWires rest (ripped ++ [j]) (j + 1)

/-! ### Placer: `try_swap_position` tail and the annealing schedule
(claims C7, C8) -/

/-- Outcome of the tail of `ParallelRefinementPlacer::try_swap_position`
(after the legality check passed): the returned bool and the final bels of
the moved cell and of the displaced cell (if any). -/
structure SwapResult where
  ret : Bool
  cellBel : Nat
  otherBel : Option Nat
deriving DecidableEq

/-- The SA acceptance test of `try_swap_position`:
`delta < 0 || (temp > 1e-8 && rng01 <= exp(-delta / temp))`.
`expf` abstracts `std::exp`; `rng01` is `ctx->rng() / float(0x3fffffff)`. -/
def sa_accept (expf : Rat → Rat) (delta temp rng01 : Rat) : Bool :=
  delta < 0 ∨ (temp > 1 / 100000000 ∧ rng01 ≤ expf (-delta / temp))

/-- The acceptance predicate exactly as the spec sentence states it:
accept iff `delta < 0` or the random draw is at most `exp(-delta/temp)`. -/
def sa_accept_claimed (expf : Rat → Rat) (delta temp rng01 : Rat) : Bool :=
  delta < 0 ∨ rng01 ≤ expf (-delta / temp)

/-- Tail of `try_swap_position` for a swap that passed the legality check:
on acceptance the cell stays on `newBel` (and the displaced cell on
`oldBel`) and `true` is returned; otherwise the bels are unbound and the
`swap_fail` path rebinds the cell to `oldBel` and the displaced cell to
`newBel`, returning `false`. -/
def try_swap_tail (expf : Rat → Rat) (delta temp rng01 : Rat)
    (oldBel newBel : Nat) (hasOther : Bool) : SwapResult :=
  bif sa_accept expf delta temp rng01 then
    ⟨true, newBel, if hasOther then some oldBel else none⟩
  else
    ⟨false, oldBel, if hasOther then some newBel else none⟩

/-- C cast `int(x)` on a nonnegative-or-negative rational: truncation
toward zero. -/
def cIntCast (x : Rat) : Int :=
  if 0 ≤ x then ⌊x⌋ else -⌊-x⌋

/-- Round-half-up, the reading of "round" in the spec for the nonnegative
diameters the placer produces. -/
def roundHalfUp (x : Rat) : Int := ⌊x + 1/2⌋

/-- The per-iteration annealing schedule of
`ParallelRefinementPlacer::place` (the block guarded by the 95%% running
average test): returns the new running average, diameter and temperature. -/
def sa_schedule (curr avg : Rat) (diameter M : Int) (temp R : Rat) :
    Rat × Int × Rat :=
  if curr < (95/100 : Rat) * avg then
    ((8/10 : Rat) * avg + (2/10 : Rat) * curr, diameter, temp)
  else
    let diam_next : Rat := (diameter : Rat) * (1 - 44/100 + R)
    let d2 : Int := max 1 (min M (cIntCast (diam_next + 1/2)))
    let t2 : Rat :=
      if R > 96/100 then temp * (1/2)
      else if R > 8/10 then temp * (9/10)
      else if R > 15/100 ∧ d2 > 1 then temp * (95/100)
      else temp * (8/10)
    (avg, d2, t2)

/-! ### Forward A* search of `Router2::route_arc` (claims C3, C6) -/

/-- `Router2::WireScore`. -/
structure WScore where
  cost : Rat
  togo_cost : Rat
  delay : Rat
deriving DecidableEq

/-- `WireScore::total`. -/
def WScore.total (s : WScore) : Rat := s.cost + s.togo_cost

/-- `Router2::QueuedWire` (the stored `Loc` keeps only x and y). -/
structure QW where
  wire : Nat
  pip : Option Nat
  locx : Int
  locy : Int
  score : WScore
  randtag : Int
deriving DecidableEq

/-- `QueuedWire::Greater` as a strict priority: `a` beats `b` when its
total score is smaller, with the random tag breaking ties. -/
def qwBeats (a b : QW) : Bool :=
  a.score.total < b.score.total ∨ (a.score.total = b.score.total ∧ a.randtag < b.randtag)

/-- `std::priority_queue::top`/`pop` over the comparator `Greater`: remove
a minimal element (the earliest among equals). -/
def popMin : List QW → Option (QW × List QW)
  | [] => none
  | x :: xs =>
    match popMin xs with
    | none => some (x, [])
    | some (y, ys) => if qwBeats y x then some (y, x :: ys) else some (x, xs)

/-- Lookup in the `visited` map (wire id to `VisitInfo` = score and pip). -/
def lookupV (vs : List (Nat × WScore × Option Nat)) (k : Nat) :
    Option (WScore × Option Nat) :=
  match vs with
  | [] => none
  | e :: rest => if e.1 = k then some e.2 else lookupV rest k

/-- `t.visited[k] = v`: in-place update when present, append otherwise. -/
def setV (vs : List (Nat × WScore × Option Nat)) (k : Nat) (v : WScore × Option Nat) :
    List (Nat × WScore × Option Nat) :=
  if (lookupV vs k).isSome then
    vs.map (fun e => if e.1 = k then (k, v) else e)
  else vs ++ [(k, v)]

/-- `Router2::bb_margin_x` (= `bb_margin_y`). -/
def bb_margin : Int := 4

/-- `Router2::hit_test_pip` on the arc bounding box of `E`. -/
def hit_test_pip (E : REnv) (l : Int × Int) : Bool :=
  l.1 ≥ E.bbx0 - bb_margin ∧ l.1 ≤ E.bbx1 + bb_margin ∧
    l.2 ≥ E.bby0 - bb_margin ∧ l.2 ≤ E.bby1 + bb_margin

/-- Mutable state of the forward A* loop; `pushed` is a ghost trace of
every wire pushed into the priority queue (including the seed), used to
state claim C6. -/
structure FwdState where
  queue : List QW
  visited : List (Nat × WScore × Option Nat)
  toexplore : Int
  iter : Int
  explored : Int
  rngCtr : Nat
  pushed : List Nat
deriving DecidableEq

/-- Body of the `for (auto dh : ctx->getPipsDownhill(curr.wire))` loop of
the forward A* in `Router2::route_arc` with `is_bb = true`: filter on the
expanded bounding box, pip availability, wire availability, reservation
and single-driving-pip rules; push, record the visit and, when the wire
is the sink, clamp the iteration budget to `iter + 5`. -/
def fwd_step_pip (E : REnv) (curr : QW) (st : FwdState) (dh : Nat) : FwdState :=
  if ¬ hit_test_pip E (E.dev.pipLoc dh) then st
  else if ¬ E.dev.checkPipAvail dh ∧ E.dev.boundPipNet dh ≠ some E.netu then st
  else
    let next := E.dev.pipDst dh
    let nwd := E.wires next
    let boundOtherPip : Bool :=
      match lookupNet nwd.bound_nets E.netu with
      | some rp => rp.2 ≠ some dh
      | none => false
    if nwd.unavailable then st
    else if nwd.reserved_net ≠ -1 ∧ nwd.reserved_net ≠ (E.netu : Int) then st
    else if boundOtherPip then st
    else
      let ns : WScore :=
        ⟨curr.score.cost + score_wire_for_arc E next (some dh),
         (7/4 : Rat) * get_togo_cost E next E.dst,
         curr.score.delay + E.dev.pipDelay (some dh) + E.dev.wireDelay next⟩
      let improves : Bool :=
        match lookupV st.visited next with
        | some sv => sv.1.total > ns.total
        | none => true
      if improves then
        { queue := st.queue ++
            [⟨next, some dh, (E.dev.pipLoc dh).1, (E.dev.pipLoc dh).2, ns,
              E.dev.rng st.rngCtr⟩],
          visited := setV st.visited next (ns, some dh),
          toexplore := if next = E.dst then min st.toexplore (st.iter + 5)
                       else st.toexplore,
          iter := st.iter,
          explored := st.explored + 1,
          rngCtr := st.rngCtr + 1,
          pushed := st.pushed ++ [next] }
      else st

/-- One iteration of the forward A* while loop: pop the best queued wire,
bump the iteration counter and expand every downhill pip. -/
def fwd_iter (E : REnv) (st : FwdState) : FwdState :=
  match popMin st.queue with
  | none => st
  | some (curr, rest) =>
    (E.dev.pipsDownhill curr.wire).foldl (fwd_step_pip E curr)
      { st with queue := rest, iter := st.iter + 1 }

/-- The forward A* while loop with `is_bb = true`
(`while (!t.queue.empty() && iter < toexplore)`), driven by a fuel that
the caller sets to the exact loop budget; `fwd_loop_aux_fuel_irrel` below
shows any fuel at least `toexplore - iter` gives the C++ semantics. -/
def fwd_loop_aux (E : REnv) : Nat → FwdState → FwdState
  | 0, st => st
  | fuel + 1, st =>
    if st.queue ≠ [] ∧ st.iter < st.toexplore then
      fwd_loop_aux E fuel (fwd_iter E st)
    else st

/-- The initial iteration budget of the forward A*:
`25000 * max(1, bb width + bb height)`. -/
def fwd_budget (E : REnv) : Int :=
  25000 * max 1 ((E.bbx1 - E.bbx0) + (E.bby1 - E.bby0))

/-- The initial forward A* state built by `Router2::route_arc`: the source
wire is pushed with a null pip and cost 0, recorded as visited, and the
iteration budget is `fwd_budget`. -/
def fwd_init (E : REnv) : FwdState :=
  let base : WScore :=
    ⟨0, get_togo_cost E E.src E.dst, E.dev.wireDelay E.src⟩
  { queue := [⟨E.src, none, 0, 0, base, 0⟩],
    visited := [(E.src, base, none)],
    toexplore := fwd_budget E,
    iter := 0,
    explored := 1,
    rngCtr := 0,
    pushed := [E.src] }

/-- The forward A* phase of `Router2::route_arc` with `is_bb = true`: run
the loop, then report `ARC_SUCCESS` when the sink was visited and
`ARC_RETRY_WITHOUT_BB` otherwise. -/
def route_arc_fwd (E : REnv) : FwdState × ArcRouteResult :=
  let stf := fwd_loop_aux E (fwd_budget E).toNat (fwd_init E)
  (stf, if (lookupV stf.visited E.dst).isSome then .ARC_SUCCESS
        else .ARC_RETRY_WITHOUT_BB)

/-! ### Backwards BFS prelude of `Router2::route_arc` (claim C6) -/

/-- Lookup in `backwards_pip` (wire id to pip id). -/
def lookupBP (bp : List (Nat × Nat)) (k : Nat) : Option Nat :=
  match bp with
  | [] => none
  | e :: rest => if e.1 = k then some e.2 else lookupBP rest k

/-- `t.backwards_pip[k] = v`: in-place update when present, else append. -/
def setBP (bp : List (Nat × Nat)) (k v : Nat) : List (Nat × Nat) :=
  if (lookupBP bp k).isSome then
    bp.map (fun e => if e.1 = k then (k, v) else e)
  else bp ++ [(k, v)]

/-- Mutable state of the backwards BFS: the FIFO queue, `backwards_pip`,
the productive-iteration counter, whether the merge branch broke out of
the loop, and the ghost trace of every wire pushed into the queue
(including the sink seed), used to state claim C6. -/
structure BwdState where
  queue : List Nat
  bpip : List (Nat × Nat)
  biter : Int
  merged : Bool
  pushed : List Nat
deriving DecidableEq

/-- The first merge walk of the backwards BFS: follow this net's recorded
driving pips up from `cursor2`; fail if a contested wire is met; stop at
a wire the net does not use or whose recorded pip is null.  Returns
(bwd_merge_fail, final cursor); `none` signals fuel exhaustion (the C++
loop would not terminate). -/
def merge_check (E : REnv) : Nat → Nat → Option (Bool × Nat)
  | 0, _ => none
  | fuel + 1, cursor2 =>
    let wd := E.wires cursor2
    match lookupNet wd.bound_nets E.netu with
    | none => some (false, cursor2)
    | some rp =>
      if wd.bound_nets.length > 1 then some (true, cursor2)
      else
        match rp.2 with
        | none => some (false, cursor2)
        | some pp => merge_check E fuel (E.dev.pipSrc pp)

/-- The second merge walk: re-follow the pips from `cursor` and record
each into `backwards_pip` keyed by the pip's source wire. -/
def merge_record (E : REnv) : Nat → Nat → List (Nat × Nat) → Option (List (Nat × Nat))
  | 0, _, _ => none
  | fuel + 1, cursor2, bp =>
    match lookupNet (E.wires cursor2).bound_nets E.netu with
    | none => some bp
    | some rp =>
      match rp.2 with
      | none => some bp
      | some pp => merge_record E fuel (E.dev.pipSrc pp) (setBP bp (E.dev.pipSrc pp) pp)

/-- The uphill expansion of one backwards BFS iteration
(`for (auto uh : ctx->getPipsUphill(cursor))`): skip unavailable pips,
pips conflicting with the net's existing driving pip, already-visited
wires, unavailable wires, wires reserved for another net and congested
wires; push the rest and record their pip.  `backwards_iter` is bumped
when the cursor had any uphill pip. -/
def bwd_step_pip (E : REnv) (cpip : Option Nat) (s : BwdState) (uh : Nat) : BwdState :=
  if ¬ E.dev.checkPipAvail uh ∧ E.dev.boundPipNet uh ≠ some E.netu then s
  else if (match cpip with | some c => c ≠ uh | none => false : Bool) then s
  else
    let next := E.dev.pipSrc uh
    if (lookupBP s.bpip next).isSome then s
    else
      let wd := E.wires next
      if wd.unavailable then s
      else if wd.reserved_net ≠ -1 ∧ wd.reserved_net ≠ (E.netu : Int) then s
      else if wd.bound_nets.length > 1 ∨
          (wd.bound_nets.length = 1 ∧ (lookupNet wd.bound_nets E.netu).isNone) then s
      else
        { s with queue := s.queue ++ [next],
                 bpip := setBP s.bpip next uh,
                 pushed := s.pushed ++ [next] }

/-- The uphill expansion of one backwards BFS iteration
(`for (auto uh : ctx->getPipsUphill(cursor))`): fold `bwd_step_pip` over
the uphill pips; `backwards_iter` is bumped when the cursor had any
uphill pip (`did_something`). -/
def bwd_expand (E : REnv) (st : BwdState) (cursor : Nat) (cpip : Option Nat) : BwdState :=
  let pips := E.dev.pipsUphill cursor
  let st2 := pips.foldl (bwd_step_pip E cpip) st
  if ¬ pips.isEmpty then { st2 with biter := st2.biter + 1 } else st2

/-- One iteration of the backwards BFS while loop: pop the front wire; if
this net already uses it and the merge walk reaches the source through
uncontested wires, record the pip chain and break out (`merged`);
otherwise expand uphill with `cpip` set to the net's recorded driving pip
(if any).  `mfuel` bounds the merge walks; `none` signals their fuel ran
out. -/
def bwd_iter (E : REnv) (mfuel : Nat) (st : BwdState) : Option BwdState :=
  match st.queue with
  | [] => some st
  | cursor :: rest =>
    let st1 := { st with queue := rest }
    let cwd := E.wires cursor
    match lookupNet cwd.bound_nets E.netu with
    | none => some (bwd_expand E st1 cursor none)
    | some rp =>
      match merge_check E mfuel cursor with
      | none => none
      | some fc =>
        if ¬ fc.1 ∧ fc.2 = E.src then
          match merge_record E mfuel cursor st1.bpip with
          | none => none
          | some bp2 => some { st1 with bpip := bp2, merged := true }
        else some (bwd_expand E st1 cursor rp.2)

/-- The backwards BFS while loop
(`while (!t.backwards_queue.empty() && backwards_iter < 10)`), with an
outer fuel; `none` signals fuel exhaustion. -/
def bwd_loop (E : REnv) (mfuel : Nat) : Nat → BwdState → Option BwdState
  | 0, st =>
    if st.queue = [] ∨ ¬ st.biter < 10 ∨ st.merged then some st else none
  | fuel + 1, st =>
    if st.queue = [] ∨ ¬ st.biter < 10 ∨ st.merged then some st
    else
      match bwd_iter E mfuel st with
      | none => none
      | some st2 => bwd_loop E mfuel fuel st2

/-- The backwards BFS prelude of `Router2::route_arc`: clear
`backwards_pip`, seed the queue with the sink wire and run the loop. -/
def route_arc_bwd (E : REnv) (mfuel ofuel : Nat) : Option BwdState :=
  bwd_loop E mfuel ofuel
    { queue := [E.dst], bpip := [], biter := 0, merged := false, pushed := [E.dst] }

/-- The ghost push-trace of an optional backwards BFS state. -/
def pushedOf (r : Option BwdState) : List Nat :=
  match r with
  | none => []
  | some st => st.pushed

/-- A wire is reserved for a net other than `E.netu`. -/
def reservedOther (E : REnv) (w : Nat) : Prop :=
  (E.wires w).reserved_net ≠ -1 ∧ (E.wires w).reserved_net ≠ (E.netu : Int)

/-- A miniature routing environment for concrete evaluations: the sink
(wire 0) is reserved for net 1 while the search routes net 0; wire 1 is
free and uphill of the sink through pip 10; the forward graph has no
downhill pips at all. -/
def sampleEnv : REnv where
  dev :=
    { pipsUphill := fun w => if w = 0 then [10] else [],
      pipsDownhill := fun _ => [],
      pipSrc := fun _ => 1,
      pipDst := fun _ => 0,
      pipLoc := fun _ => (0, 0),
      checkPipAvail := fun _ => true,
      boundPipNet := fun _ => none,
      pipDelay := fun _ => 0,
      wireDelay := fun _ => 0,
      eps := 0,
      delayNS := fun x => x,
      estimateDelay := fun _ _ => 0,
      rng := fun _ => 0 }
  wires := fun w => if w = 0 then ⟨[], 1, false, 1⟩ else ⟨[], 1, false, -1⟩
  netu := 0
  src := 5
  dst := 0
  nm := ⟨0, 0, 1, 1⟩
  ccw := 1
  bbx0 := 0
  bbx1 := 0
  bby0 := 0
  bby1 := 0

/-! ## Theorems -/

/-! ### Claim C1: `update_congestion` history and failed-net accounting -/

theorem update_congestion_fst (hw : Rat) (ws : List (Nat × PerWireData)) :
    (update_congestion hw ws).1 = ws.map (fun p => (p.1, updWire hw p.2)) := by
  induction ws with
  | nil => rfl
  | cons e rest ih =>
    obtain ⟨k, w⟩ := e
    simp only [update_congestion, List.map_cons]
    split <;> simp [ih]

theorem update_congestion_failed_mono (hw : Rat) (e : Nat × PerWireData)
    (ws : List (Nat × PerWireData)) :
    (update_congestion hw ws).2.failed_nets ⊆
      (update_congestion hw (e :: ws)).2.failed_nets := by
  obtain ⟨k, w⟩ := e
  simp only [update_congestion]
  split
  · intro x hx
    exact List.mem_append_right _ hx
  · intro x hx
    exact hx

theorem update_congestion_failed_mem (hw : Rat) (ws : List (Nat × PerWireData))
    (e : Nat × PerWireData) (he : e ∈ ws) (hlen : 1 < e.2.bound_nets.length)
    (b : Nat × Int × Option Nat) (hb : b ∈ e.2.bound_nets) :
    b.1 ∈ (update_congestion hw ws).2.failed_nets := by
  induction ws with
  | nil => cases he
  | cons hd rest ih =>
    rcases List.mem_cons.mp he with h | h
    · obtain ⟨k, w⟩ := hd
      subst h
      simp only [update_congestion]
      have hpos : ((w.bound_nets.length : Int) - 1) > 0 := by
        have : (1 : Int) < (w.bound_nets.length : Int) := by exact_mod_cast hlen
        omega
      rw [if_pos hpos]
      exact List.mem_append_left _ (List.mem_map_of_mem _ hb)
    · exact update_congestion_failed_mono hw hd rest (ih h)

theorem updWire_overused (hw : Rat) (w : PerWireData)
    (hlen : 1 < w.bound_nets.length) :
    (updWire hw w).hist_cong_cost
      = w.hist_cong_cost + ((w.bound_nets.length : Rat) - 1) * hw := by
  have hpos : ((w.bound_nets.length : Int) - 1) > 0 := by
    have : (1 : Int) < (w.bound_nets.length : Int) := by exact_mod_cast hlen
    omega
  simp only [updWire, if_pos hpos]
  push_cast
  ring

theorem updWire_not_overused (hw : Rat) (w : PerWireData)
    (hlen : w.bound_nets.length ≤ 1) :
    (updWire hw w).hist_cong_cost = w.hist_cong_cost := by
  have hpos : ¬ ((w.bound_nets.length : Int) - 1) > 0 := by
    have : (w.bound_nets.length : Int) ≤ 1 := by exact_mod_cast hlen
    omega
  simp only [updWire, if_neg hpos]

theorem updWire_mono (hw : Rat) (w : PerWireData) (hhw : 0 ≤ hw) :
    w.hist_cong_cost ≤ (updWire hw w).hist_cong_cost := by
  by_cases h : ((w.bound_nets.length : Int) - 1) > 0
  · simp only [updWire, if_pos h]
    have h1 : (0 : Rat) ≤ (((w.bound_nets.length : Int) - 1 : Int) : Rat) := by
      exact_mod_cast le_of_lt h
    nlinarith
  · simp only [updWire, if_neg h]
    exact le_rfl

/-- Claim C1: after `update_congestion`, every wire with
`k = bound_nets.size() > 1` has its `hist_cong_cost` increased by exactly
`(k - 1) * hist_cong_weight` and every net bound on it lands in the
failed-net set; a wire with `k <= 1` keeps its cost; with the router's
nonnegative `hist_cong_weight` the cost is monotonically non-decreasing
across iterations. -/
theorem update_congestion_spec (hw : Rat) (ws : List (Nat × PerWireData))
    (hhw : 0 ≤ hw) (e : Nat × PerWireData) (he : e ∈ ws) :
    (update_congestion hw ws).1 = ws.map (fun p => (p.1, updWire hw p.2)) ∧
    (1 < e.2.bound_nets.length →
      (updWire hw e.2).hist_cong_cost
        = e.2.hist_cong_cost + ((e.2.bound_nets.length : Rat) - 1) * hw ∧
      ∀ b ∈ e.2.bound_nets, b.1 ∈ (update_congestion hw ws).2.failed_nets) ∧
    (e.2.bound_nets.length ≤ 1 →
      (updWire hw e.2).hist_cong_cost = e.2.hist_cong_cost) ∧
    e.2.hist_cong_cost ≤ (updWire hw e.2).hist_cong_cost := by
  refine ⟨update_congestion_fst hw ws, fun hlen => ⟨updWire_overused hw e.2 hlen, ?_⟩,
    updWire_not_overused hw e.2, updWire_mono hw e.2 hhw⟩
  intro b hb
  exact update_congestion_failed_mem hw ws e he hlen b hb

/-- Witness for C1 at a concrete overused wire: the history cost rises by
`(2 - 1) * 1` and the bound net 7 is marked failed. -/
theorem update_congestion_spec_witness :
    (updWire 1 ⟨[(7, 1, none), (9, 1, none)], 1, false, -1⟩).hist_cong_cost
        = (1 : Rat) + ((2 : Rat) - 1) * 1 ∧
    7 ∈ (update_congestion 1
        [(0, ⟨[(7, 1, none), (9, 1, none)], 1, false, -1⟩)]).2.failed_nets := by
  have h := update_congestion_spec 1
    [(0, ⟨[(7, 1, none), (9, 1, none)], 1, false, -1⟩)] (by norm_num)
    (0, ⟨[(7, 1, none), (9, 1, none)], 1, false, -1⟩) (by simp)
  obtain ⟨-, h2, -, -⟩ := h
  have h3 := h2 (by simp)
  refine ⟨by simpa using h3.1, ?_⟩
  exact h3.2 (7, 1, none) (by simp)

/-! ### Claim C2: `score_wire_for_arc` formula and `present_wire_cost` -/

theorem lookupNet_isSome_of_mem (bn : List (Nat × Int × Option Nat))
    (e : Nat × Int × Option Nat) (he : e ∈ bn) :
    (lookupNet bn e.1).isSome := by
  induction bn with
  | nil => cases he
  | cons hd rest ih =>
    rcases List.mem_cons.mp he with h | h
    · subst h
      simp [lookupNet]
    · by_cases hk : hd.1 = e.1
      · simp [lookupNet, hk]
      · simpa [lookupNet, hk] using ih h

theorem lookupNet_mem_of_isSome (bn : List (Nat × Int × Option Nat)) (k : Nat)
    (h : (lookupNet bn k).isSome) : ∃ e ∈ bn, e.1 = k := by
  induction bn with
  | nil => simp [lookupNet] at h
  | cons hd rest ih =>
    by_cases hk : hd.1 = k
    · exact ⟨hd, List.mem_cons_self hd rest, hk⟩
    · simp only [lookupNet, if_neg hk] at h
      obtain ⟨e, he, hek⟩ := ih h
      exact ⟨e, List.mem_cons_of_mem hd he, hek⟩

theorem two_le_length_of_mem_ne {α : Type} {l : List α} {a b : α}
    (ha : a ∈ l) (hb : b ∈ l) (hne : a ≠ b) : 2 ≤ l.length := by
  match l with
  | [] => cases ha
  | [x] =>
    simp only [List.mem_singleton] at ha hb
    exact absurd (ha.trans hb.symm) hne
  | x :: y :: t => simp [List.length]

theorem present_wire_cost_no_other (ccw : Rat) (w : PerWireData) (netu : Nat)
    (hnd : (w.bound_nets.map (fun e => e.1)).Nodup)
    (hall : ∀ e ∈ w.bound_nets, e.1 = netu) :
    present_wire_cost ccw w netu = 1 := by
  have hz : ((w.bound_nets.length : Int)
      - (if (lookupNet w.bound_nets netu).isSome then 1 else 0)) = 0 := by
    rcases hbn : w.bound_nets with _ | ⟨e0, rest⟩
    · simp [lookupNet]
    · have hkey : e0.1 = netu := hall e0 (by rw [hbn]; exact List.mem_cons_self _ _)
      have hrest : rest = [] := by
        rcases rest with _ | ⟨e1, t⟩
        · rfl
        · exfalso
          have h1 : e1.1 = netu := hall e1 (by rw [hbn]; simp)
          rw [hbn] at hnd
          simp only [List.map_cons, List.nodup_cons, List.mem_cons] at hnd
          exact hnd.1 (Or.inl (hkey.trans h1.symm))
      subst hrest
      simp [lookupNet, hkey]
  simp only [present_wire_cost, hz, if_pos]

theorem present_wire_cost_other (ccw : Rat) (w : PerWireData) (netu : Nat)
    (hex : ∃ e ∈ w.bound_nets, e.1 ≠ netu) :
    present_wire_cost ccw w netu
      = 1 + ((((w.bound_nets.length : Int)
          - (if (lookupNet w.bound_nets netu).isSome then 1 else 0)) : Int) : Rat)
            * ccw := by
  obtain ⟨e, he, hne⟩ := hex
  have hos : ((w.bound_nets.length : Int)
      - (if (lookupNet w.bound_nets netu).isSome then 1 else 0)) ≠ 0 := by
    by_cases hs : (lookupNet w.bound_nets netu).isSome
    · obtain ⟨e2, he2, hk2⟩ := lookupNet_mem_of_isSome w.bound_nets netu hs
      have hne2 : e ≠ e2 := fun hc => hne (hc ▸ hk2)
      have h2 := two_le_length_of_mem_ne he he2 hne2
      have h2i : (2 : Int) ≤ (w.bound_nets.length : Int) := by exact_mod_cast h2
      rw [if_pos hs]
      omega
    · have h1 : 1 ≤ w.bound_nets.length :=
        List.length_pos.mpr (List.ne_nil_of_mem he)
      have h1i : (1 : Int) ≤ (w.bound_nets.length : Int) := by exact_mod_cast h1
      rw [if_neg hs]
      omega
  simp only [present_wire_cost, if_neg hos]

/-- Claim C2: `score_wire_for_arc` returns
`base_cost * hist_cong_cost * present_cost / (1 + su) + bias_cost` where
`su` is the net's arc refcount on the wire (0 when absent) and
`present_cost = present_wire_cost`, which is 1 when no net other than
`netu` is bound on the wire and otherwise
`1 + other_sources * curr_cong_weight` with
`other_sources = bound_nets.size()` minus 1 if `netu` is present. -/
theorem score_wire_for_arc_spec (E : REnv) (wire : Nat) (pip : Option Nat)
    (hnd : ((E.wires wire).bound_nets.map (fun e => e.1)).Nodup) :
    score_wire_for_arc E wire pip
      = baseCost E wire pip * (E.wires wire).hist_cong_cost
          * present_wire_cost E.ccw (E.wires wire) E.netu
          / (1 + (sourceUses (E.wires wire).bound_nets E.netu : Rat))
        + biasCost E wire pip ∧
    ((∀ e ∈ (E.wires wire).bound_nets, e.1 = E.netu) →
      present_wire_cost E.ccw (E.wires wire) E.netu = 1) ∧
    ((∃ e ∈ (E.wires wire).bound_nets, e.1 ≠ E.netu) →
      present_wire_cost E.ccw (E.wires wire) E.netu
        = 1 + ((((E.wires wire).bound_nets.length : Int)
            - (if (lookupNet (E.wires wire).bound_nets E.netu).isSome then 1 else 0)
            : Int) : Rat) * E.ccw) :=
  ⟨rfl, present_wire_cost_no_other E.ccw (E.wires wire) E.netu hnd,
    present_wire_cost_other E.ccw (E.wires wire) E.netu⟩

/-- Witness for C2: with only net 3 itself on the wire, the present cost
is 1. -/
theorem score_wire_for_arc_spec_witness :
    present_wire_cost (1/2)
      ((REnv.mk
        ⟨fun _ => [], fun _ => [], id, id, fun _ => (0, 0), fun _ => true,
         fun _ => none, fun _ => 0, fun _ => 0, 0, id, fun _ _ => 0, fun _ => 0⟩
        (fun _ => ⟨[(3, 1, none)], 1, false, -1⟩) 3 0 1
        ⟨0, 0, 1, 1⟩ (1/2) 0 0 0 0).wires 0) 3 = 1 := by
  exact (score_wire_for_arc_spec
    (REnv.mk
      ⟨fun _ => [], fun _ => [], id, id, fun _ => (0, 0), fun _ => true,
       fun _ => none, fun _ => 0, fun _ => 0, 0, id, fun _ _ => 0, fun _ => 0⟩
      (fun _ => ⟨[(3, 1, none)], 1, false, -1⟩) 3 0 1
      ⟨0, 0, 1, 1⟩ (1/2) 0 0 0 0) 0 none (by simp)).2.1 (by simp)

/-! ### Claim C10: `bind_pip_internal` / `unbind_pip_internal` -/

theorem lookupNet_mem (bn : List (Nat × Int × Option Nat)) (k : Nat)
    (v : Int × Option Nat) (h : lookupNet bn k = some v) : (k, v) ∈ bn := by
  induction bn with
  | nil => simp [lookupNet] at h
  | cons hd rest ih =>
    by_cases hk : hd.1 = k
    · simp only [lookupNet, if_pos hk] at h
      obtain rfl : hd.2 = v := by injection h
      subst hk
      simp
    · simp only [lookupNet, if_neg hk] at h
      exact List.mem_cons_of_mem hd (ih h)

theorem lookupNet_none_forall (bn : List (Nat × Int × Option Nat)) (k : Nat)
    (h : lookupNet bn k = none) : ∀ e ∈ bn, e.1 ≠ k := by
  induction bn with
  | nil => intro e he; cases he
  | cons hd rest ih =>
    by_cases hk : hd.1 = k
    · simp [lookupNet, if_pos hk] at h
    · simp only [lookupNet, if_neg hk] at h
      intro e he
      rcases List.mem_cons.mp he with rfl | hm
      · exact hk
      · exact ih h e hm

theorem lookupNet_append_left_none (bn l2 : List (Nat × Int × Option Nat)) (k : Nat)
    (h : lookupNet bn k = none) : lookupNet (bn ++ l2) k = lookupNet l2 k := by
  induction bn with
  | nil => rfl
  | cons hd rest ih =>
    by_cases hk : hd.1 = k
    · simp [lookupNet, if_pos hk] at h
    · simp only [lookupNet, if_neg hk] at h
      simpa [lookupNet, if_neg hk] using ih h

theorem keys_map_upd (bn : List (Nat × Int × Option Nat)) (k : Nat)
    (v : Int × Option Nat) :
    ((bn.map (fun e => if e.1 = k then (k, v) else e)).map (fun e => e.1))
      = bn.map (fun e => e.1) := by
  rw [List.map_map]
  apply List.map_congr_left
  intro e _
  by_cases hk : e.1 = k
  · simp [hk]
  · simp [hk]

theorem lookupNet_map_upd (bn : List (Nat × Int × Option Nat)) (k : Nat)
    (v : Int × Option Nat) :
    lookupNet (bn.map (fun e => if e.1 = k then (k, v) else e)) k
      = if (lookupNet bn k).isSome then some v else none := by
  induction bn with
  | nil => rfl
  | cons hd rest ih =>
    by_cases hk : hd.1 = k
    · simp [lookupNet, hk]
    · simp only [List.map_cons, if_neg hk, lookupNet, ih]

theorem map_upd_id_of_none (bn : List (Nat × Int × Option Nat)) (k : Nat)
    (v : Int × Option Nat) (h : lookupNet bn k = none) :
    bn.map (fun e => if e.1 = k then (k, v) else e) = bn := by
  have hall := lookupNet_none_forall bn k h
  have hp : bn.map (fun e => if e.1 = k then (k, v) else e) = bn.map id :=
    List.map_congr_left (fun e he => by rw [if_neg (hall e he)]; rfl)
  rw [hp, List.map_id]

theorem map_upd_eq_self (bn : List (Nat × Int × Option Nat)) (k : Nat)
    (v : Int × Option Nat) (hnd : (bn.map (fun e => e.1)).Nodup)
    (h : lookupNet bn k = some v) :
    bn.map (fun e => if e.1 = k then (k, v) else e) = bn := by
  induction bn with
  | nil => rfl
  | cons hd rest ih =>
    simp only [List.map_cons, List.nodup_cons] at hnd
    by_cases hk : hd.1 = k
    · simp only [lookupNet, if_pos hk] at h
      obtain rfl : hd.2 = v := by injection h
      have hrest : lookupNet rest k = none := by
        rcases hl : lookupNet rest k with _ | v2
        · rfl
        · exact absurd (hk ▸ List.mem_map_of_mem (fun e => e.1)
            (lookupNet_mem rest k v2 hl)) hnd.1
      simp only [List.map_cons, if_pos hk, map_upd_id_of_none rest k _ hrest]
      have : hd = (k, hd.2) := by
        rw [← hk]
      rw [← this]
    · simp only [lookupNet, if_neg hk] at h
      simp only [List.map_cons, if_neg hk, ih hnd.2 h]

theorem filter_ne_eq_self_of_none (bn : List (Nat × Int × Option Nat)) (k : Nat)
    (h : lookupNet bn k = none) :
    bn.filter (fun e => e.1 ≠ k) = bn := by
  have hall := lookupNet_none_forall bn k h
  apply List.filter_eq_self.mpr
  intro e he
  simpa using hall e he

/-- Claim C10: a `(net, wire)` entry exists in `bound_nets` iff its
refcount is at least 1 (the well-formedness `WFbn` is preserved by both
operations); `bind_pip_internal` succeeds on an existing entry only with
the recorded driving pip (so a net never drives one wire through two
distinct pips); and an `unbind_pip_internal` immediately after a
successful `bind_pip_internal` of the same (net, wire) leaves `bound_nets`
unchanged. -/
theorem bind_unbind_spec (bn : List (Nat × Int × Option Nat)) (netu : Nat)
    (pip : Option Nat) (hwf : WFbn bn) :
    (∀ bn2, mapBind bn netu pip = some bn2 → WFbn bn2) ∧
    (∀ r p0, lookupNet bn netu = some (r, p0) →
      (mapBind bn netu pip).isSome → pip = p0) ∧
    ((lookupNet bn netu).isSome → WFbn (mapUnbind bn netu)) ∧
    (∀ bn2, mapBind bn netu pip = some bn2 → mapUnbind bn2 netu = bn) := by
  obtain ⟨hnd, hge⟩ := hwf
  have hr1 : ∀ r p0, lookupNet bn netu = some (r, p0) → 1 ≤ r := by
    intro r p0 hl
    exact hge (netu, r, p0) (lookupNet_mem bn netu (r, p0) hl)
  refine ⟨?_, ?_, ?_, ?_⟩
  · intro bn2 hb
    rcases hl : lookupNet bn netu with _ | ⟨r, p0⟩
    · simp only [mapBind, hl] at hb
      obtain rfl : bn ++ [(netu, 1, pip)] = bn2 := by injection hb
      constructor
      · rw [List.map_append]
        apply List.Nodup.append hnd (by simp)
        intro a ha hb2
        simp only [List.map_cons, List.map_nil, List.mem_singleton] at hb2
        obtain ⟨e, he, hek⟩ := List.mem_map.mp ha
        exact (lookupNet_none_forall bn netu hl e he) (hek.trans hb2)
      · intro e he
        rcases List.mem_append.mp he with h | h
        · exact hge e h
        · simp only [List.mem_singleton] at h
          subst h
          norm_num
    · have hr := hr1 r p0 hl
      have hne1 : ¬ (r + 1 = 1) := by omega
      simp only [mapBind, hl, if_neg hne1] at hb
      by_cases hp : p0 = pip
      · rw [if_pos hp] at hb
        obtain rfl : bn.map (fun e => if e.1 = netu then (netu, r + 1, p0) else e) = bn2 := by
          injection hb
        constructor
        · rw [keys_map_upd]
          exact hnd
        · intro e he
          obtain ⟨e0, he0, heq⟩ := List.mem_map.mp he
          by_cases hk : e0.1 = netu
          · rw [if_pos hk] at heq
            subst heq
            have := hge e0 he0
            norm_num
            omega
          · rw [if_neg hk] at heq
            subst heq
            exact hge e0 he0
      · rw [if_neg hp] at hb
        cases hb
  · intro r p0 hl hb
    have hr := hr1 r p0 hl
    have hne1 : ¬ (r + 1 = 1) := by omega
    by_cases hp : p0 = pip
    · exact hp.symm
    · exfalso
      simp [mapBind, hl, if_neg hne1, if_neg hp] at hb
      omega
  · intro hs
    rcases hl : lookupNet bn netu with _ | ⟨r, p0⟩
    · rw [hl] at hs
      simp at hs
    · have hr := hr1 r p0 hl
      by_cases h1 : r - 1 = 0
      · simp only [mapUnbind, hl, if_pos h1]
        constructor
        · exact List.Nodup.sublist (List.Sublist.map _ (List.filter_sublist bn)) hnd
        · intro e he
          exact hge e (List.mem_of_mem_filter he)
      · simp only [mapUnbind, hl, if_neg h1]
        constructor
        · rw [keys_map_upd]
          exact hnd
        · intro e he
          obtain ⟨e0, he0, heq⟩ := List.mem_map.mp he
          by_cases hk : e0.1 = netu
          · rw [if_pos hk] at heq
            subst heq
            norm_num
            omega
          · rw [if_neg hk] at heq
            subst heq
            exact hge e0 he0
  · intro bn2 hb
    rcases hl : lookupNet bn netu with _ | ⟨r, p0⟩
    · simp only [mapBind, hl] at hb
      obtain rfl : bn ++ [(netu, 1, pip)] = bn2 := by injection hb
      have hl2 : lookupNet (bn ++ [(netu, 1, pip)]) netu = some (1, pip) := by
        rw [lookupNet_append_left_none bn _ netu hl]
        simp [lookupNet]
      simp only [mapUnbind, hl2]
      rw [if_pos (by norm_num : (1 : Int) - 1 = 0)]
      rw [List.filter_append, filter_ne_eq_self_of_none bn netu hl]
      simp
    · have hr := hr1 r p0 hl
      have hne1 : ¬ (r + 1 = 1) := by omega
      simp only [mapBind, hl, if_neg hne1] at hb
      by_cases hp : p0 = pip
      · rw [if_pos hp] at hb
        obtain rfl : bn.map (fun e => if e.1 = netu then (netu, r + 1, p0) else e) = bn2 := by
          injection hb
        have hl2 : lookupNet (bn.map (fun e => if e.1 = netu then (netu, r + 1, p0) else e))
            netu = some (r + 1, p0) := by
          rw [lookupNet_map_upd]
          rw [hl]
          rfl
        have hne2 : ¬ (r + 1 - 1 = 0) := by omega
        simp only [mapUnbind, hl2, if_neg hne2]
        rw [List.map_map]
        have hcomp : ((fun e => if e.1 = netu then (netu, r + 1 - 1, p0) else e) ∘
            (fun e => if e.1 = netu then ((netu : Nat), r + 1, p0) else e))
            = fun (e : Nat × Int × Option Nat) =>
                if e.1 = netu then (netu, r, p0) else e := by
          funext e
          by_cases hk : e.1 = netu
          · simp [hk]
          · simp [hk]
        rw [hcomp]
        have : (r + 1 - 1 : Int) = r := by omega
        exact map_upd_eq_self bn netu (r, p0) hnd hl
      · rw [if_neg hp] at hb
        cases hb

/-- Witness for C10: binding net 2 again through pip 5 and unbinding once
restores the original map. -/
theorem bind_unbind_spec_witness :
    mapUnbind [(2, 2, some 5)] 2 = [(2, 1, some 5)] := by
  have h := (bind_unbind_spec [(2, 1, some 5)] 2 (some 5)
    (by constructor <;> decide)).2.2.2 [(2, 2, some 5)] (by decide)
  exact h

/-! ### Claim C5: the unbind phase of `bind_and_check_all` -/

theorem mem_collect_net_wires (netWires : List (Nat × Nat)) (w : Nat) :
    w ∈ collect_net_wires netWires ↔
      ∃ s, (w, s) ∈ netWires ∧ s ≤ STRENGTH_STRONG := by
  simp only [collect_net_wires, List.mem_map, List.mem_filter]
  constructor
  · rintro ⟨p, ⟨hp, hs⟩, rfl⟩
    refine ⟨p.2, ?_, ?_⟩
    · simpa using hp
    · simpa using hs
  · rintro ⟨s, hp, hs⟩
    refine ⟨(w, s), ⟨hp, ?_⟩, rfl⟩
    simpa using hs

theorem mem_foldl_filter (rm : List Nat) (table : List (Nat × Nat × Nat))
    (e : Nat × Nat × Nat) :
    e ∈ rm.foldl (fun t w => t.filter (fun x => x.1 ≠ w)) table ↔
      e ∈ table ∧ e.1 ∉ rm := by
  induction rm generalizing table with
  | nil => simp
  | cons hd rest ih =>
    simp only [List.foldl_cons, ih, List.mem_filter, List.mem_cons]
    constructor
    · rintro ⟨⟨ht, hne⟩, hrest⟩
      refine ⟨ht, ?_⟩
      intro hc
      rcases hc with hc | hc
      · have hne2 : e.1 ≠ hd := by simpa using hne
        exact hne2 hc
      · exact hrest hc
    · rintro ⟨ht, hnot⟩
      refine ⟨⟨ht, ?_⟩, fun hc => hnot (Or.inr hc)⟩
      simpa using fun hc => hnot (Or.inl hc)

theorem keys_nodup_unique_val (l : List (Nat × Nat)) (w s s2 : Nat)
    (hnd : (l.map (fun p => p.1)).Nodup)
    (h1 : (w, s) ∈ l) (h2 : (w, s2) ∈ l) : s = s2 := by
  induction l with
  | nil => cases h1
  | cons hd rest ih =>
    simp only [List.map_cons, List.nodup_cons] at hnd
    rcases List.mem_cons.mp h1 with he1 | he1 <;>
      rcases List.mem_cons.mp h2 with he2 | he2
    · rw [← he1] at he2
      injection he2 with _ hv
      exact hv.symm
    · exfalso
      apply hnd.1
      rw [← he1]
      exact List.mem_map_of_mem (fun p => p.1) he2
    · exfalso
      apply hnd.1
      rw [← he2]
      exact List.mem_map_of_mem (fun p => p.1) he1
    · exact ih hnd.2 he1 he2

/-- Counterexample to claim C5 as stated: a wire bound with strength
`STRENGTH_STRONG` does not remain bound — the unbind phase removes it
from the binding table (the source filter is `strength <= STRONG`, not
`strength == WEAK`). -/
theorem unbind_phase_strong_removed :
    unbind_phase [(0, 7, STRENGTH_STRONG)] [(0, STRENGTH_STRONG)] = [] := by
  decide

/-- Claim C5, amended: for a non-global net the unbind phase of
`bind_and_check_all` unbinds exactly the net's wires bound with strength
at most `STRENGTH_STRONG` (both WEAK and STRONG); a wire of the net
remains in the device binding table iff its strength is strictly above
`STRENGTH_STRONG`. -/
theorem unbind_phase_spec (table : List (Nat × Nat × Nat))
    (netWires : List (Nat × Nat)) (w s : Nat)
    (hnd : (netWires.map (fun p => p.1)).Nodup)
    (hw : (w, s) ∈ netWires) :
    (∃ e ∈ unbind_phase table netWires, e.1 = w) ↔
      (STRENGTH_STRONG < s ∧ ∃ e ∈ table, e.1 = w) := by
  have hcol : w ∈ collect_net_wires netWires ↔ s ≤ STRENGTH_STRONG := by
    rw [mem_collect_net_wires]
    constructor
    · rintro ⟨s2, hp, hs2⟩
      rw [keys_nodup_unique_val netWires w s s2 hnd hw hp]
      exact hs2
    · intro hs
      exact ⟨s, hw, hs⟩
  constructor
  · rintro ⟨e, he, rfl⟩
    rw [unbind_phase] at he
    rw [mem_foldl_filter] at he
    refine ⟨?_, e, he.1, rfl⟩
    by_contra hle
    exact he.2 (hcol.mpr (by omega))
  · rintro ⟨hs, e, he, rfl⟩
    refine ⟨e, ?_, rfl⟩
    rw [unbind_phase, mem_foldl_filter]
    refine ⟨he, fun hc => ?_⟩
    have := hcol.mp hc
    omega

/-- Witness for C5 (amended): a `STRENGTH_FIXED` pre-routed wire survives
the unbind phase. -/
theorem unbind_phase_spec_witness :
    (∃ e ∈ unbind_phase [(1, 7, STRENGTH_FIXED)] [(1, STRENGTH_FIXED)], e.1 = 1) := by
  exact (unbind_phase_spec [(1, 7, STRENGTH_FIXED)] [(1, STRENGTH_FIXED)] 1
    STRENGTH_FIXED (by decide) (by decide)).mpr
    ⟨by decide, (1, 7, STRENGTH_FIXED), by decide, rfl⟩

/-! ### Claim C7: the SA acceptance test of `try_swap_position` -/

/-- Counterexample to claim C7 as stated: with `delta = 0`,
`temp = 1e-9` and a random draw of 0, the claimed criterion
(`delta < 0` or `draw <= exp(-delta/temp)`, with `exp 0 = 1`) accepts,
but the code rejects and reverts, because the source guards the
Metropolis branch with `temp > 1e-8`. -/
theorem try_swap_accept_cex :
    sa_accept_claimed (fun _ => 1) 0 (1/1000000000) 0 = true ∧
    (try_swap_tail (fun _ => 1) 0 (1/1000000000) 0 5 6 false).ret = false ∧
    (try_swap_tail (fun _ => 1) 0 (1/1000000000) 0 5 6 false).cellBel = 5 := by
  refine ⟨?_, ?_, ?_⟩ <;>
    norm_num [sa_accept_claimed, try_swap_tail, sa_accept]

/-- Claim C7, amended: a legality-passing swap is accepted iff
`delta < 0` or (`temp > 1e-8` and the uniform draw is at most
`exp(-delta / temp)`); on non-acceptance the swap is reverted, the moved
cell back on its old bel and the displaced cell back on the new bel. -/
theorem try_swap_tail_spec (expf : Rat → Rat) (delta temp rng01 : Rat)
    (oldBel newBel : Nat) (hasOther : Bool) :
    ((try_swap_tail expf delta temp rng01 oldBel newBel hasOther).ret = true ↔
      (delta < 0 ∨ (temp > 1/100000000 ∧ rng01 ≤ expf (-delta / temp)))) ∧
    ((try_swap_tail expf delta temp rng01 oldBel newBel hasOther).ret = false →
      (try_swap_tail expf delta temp rng01 oldBel newBel hasOther).cellBel = oldBel ∧
      (try_swap_tail expf delta temp rng01 oldBel newBel hasOther).otherBel
        = (if hasOther then some newBel else none)) ∧
    ((try_swap_tail expf delta temp rng01 oldBel newBel hasOther).ret = true →
      (try_swap_tail expf delta temp rng01 oldBel newBel hasOther).cellBel = newBel ∧
      (try_swap_tail expf delta temp rng01 oldBel newBel hasOther).otherBel
        = (if hasOther then some oldBel else none)) := by
  cases hB : sa_accept expf delta temp rng01 with
  | false =>
    have h : ¬ (delta < 0 ∨ (temp > 1/100000000 ∧ rng01 ≤ expf (-delta / temp))) :=
      of_decide_eq_false hB
    simp only [try_swap_tail, hB, cond_false]
    simp [h]
    simpa using h
  | true =>
    have h : (delta < 0 ∨ (temp > 1/100000000 ∧ rng01 ≤ expf (-delta / temp))) :=
      of_decide_eq_true hB
    simp only [try_swap_tail, hB, cond_true]
    simp [h]
    simpa using h

/-- Witness for C7 (amended): a rejected swap (delta = 1, draw above the
threshold) leaves the cell on its old bel and the other cell on the new
bel. -/
theorem try_swap_tail_spec_witness :
    (try_swap_tail (fun _ => 0) 1 1 1 0 1 true).cellBel = 0 ∧
    (try_swap_tail (fun _ => 0) 1 1 1 0 1 true).otherBel = some 1 := by
  have h := (try_swap_tail_spec (fun _ => 0) 1 1 1 0 1 true).2.1
    (by norm_num [try_swap_tail, sa_accept])
  exact ⟨h.1, by simpa using h.2⟩

/-! ### Claim C8: the placer annealing schedule -/

/-- Claim C8: in an SA iteration with `R = n_accept / n_move`, when the
current wirelength is not below 95%% of the running average, the diameter
becomes `clamp(1, M, round(diameter * (1 - 0.44 + R)))` and the
temperature is scaled by 0.5 / 0.9 / 0.95 / 0.8 according to the
thresholds on `R` (the 0.95 case testing the updated diameter); when it
is below, only the running average changes. -/
theorem sa_schedule_spec (curr avg : Rat) (diameter M : Int) (temp R : Rat)
    (n_accept n_move : Nat) (hmv : 0 < n_move)
    (hR : R = (n_accept : Rat) / (n_move : Rat)) (hd : 0 ≤ diameter) :
    (¬ curr < (95/100 : Rat) * avg →
      sa_schedule curr avg diameter M temp R
        = (avg,
           max 1 (min M (roundHalfUp ((diameter : Rat) * (1 - 44/100 + R)))),
           temp * (if R > 96/100 then 1/2
                   else if R > 8/10 then 9/10
                   else if R > 15/100 ∧
                       max 1 (min M (roundHalfUp
                         ((diameter : Rat) * (1 - 44/100 + R)))) > 1 then 95/100
                   else 8/10))) ∧
    (curr < (95/100 : Rat) * avg →
      sa_schedule curr avg diameter M temp R
        = ((8/10 : Rat) * avg + (2/10 : Rat) * curr, diameter, temp)) := by
  constructor
  · intro hno
    have hR0 : 0 ≤ R := by
      rw [hR]
      positivity
    have hdq : 0 ≤ (diameter : Rat) := by exact_mod_cast hd
    have hx : 0 ≤ (diameter : Rat) * (1 - 44/100 + R) + 1/2 := by nlinarith
    have hc : cIntCast ((diameter : Rat) * (1 - 44/100 + R) + 1/2)
        = roundHalfUp ((diameter : Rat) * (1 - 44/100 + R)) := by
      unfold cIntCast roundHalfUp
      rw [if_pos hx]
    simp only [sa_schedule, if_neg hno, hc]
    refine Prod.ext rfl (Prod.ext rfl ?_)
    split_ifs <;> ring
  · intro hyes
    simp only [sa_schedule, if_pos hyes]

/-- Witness for C8: the spec scenario `diameter = 35`, `R = 0.5` inside a
window with no wirelength improvement: the diameter becomes
`round(35 * 1.06) = 37` (bounded by `M = 50`) and `temp` shrinks by
0.95 from 10 to 9.5. -/
theorem sa_schedule_spec_witness :
    sa_schedule 100 100 35 50 10 (1/2) = (100, 37, 19/2) := by
  have h := (sa_schedule_spec 100 100 35 50 10 (1/2) 1 2 (by norm_num)
    (by norm_num) (by norm_num)).1 (by norm_num)
  rw [h]
  norm_num [roundHalfUp]

/-! ### Claim C9: `setup_nets` error behaviour and per-net population -/

theorem setup_net_go_ok_iff (bbOf : Nat → Nat → ABounds) (hasDrv : Bool)
    (srcw : Option Nat) (users : List UserIn) :
    ∀ bb cx cy arcs,
    (∃ v, setup_net_go bbOf hasDrv srcw users bb cx cy arcs = .ok v) ↔
      ∀ u ∈ users,
        (if hasDrv then srcw else u.dst_wire).isSome = true ∧
        u.dst_wire.isSome = true := by
  induction users with
  | nil =>
    intro bb cx cy arcs
    simp [setup_net_go]
  | cons u rest ih =>
    intro bb cx cy arcs
    rcases hse : (if hasDrv then srcw else u.dst_wire) with _ | s
    · constructor
      · rintro ⟨v, hv⟩
        simp only [setup_net_go] at hv
        rw [hse] at hv
        simp at hv
      · intro hall
        exfalso
        have h1 := (hall u (List.mem_cons_self u rest)).1
        rw [hse] at h1
        simp at h1
    · rcases hd2 : u.dst_wire with _ | d
      · constructor
        · rintro ⟨v, hv⟩
          simp only [setup_net_go] at hv
          rw [hse] at hv
          rw [hd2] at hv
          simp at hv
        · intro hall
          exfalso
          have h1 := (hall u (List.mem_cons_self u rest)).2
          rw [hd2] at h1
          simp at h1
      · have heq : setup_net_go bbOf hasDrv srcw (u :: rest) bb cx cy arcs
            = setup_net_go bbOf hasDrv srcw rest
                ⟨min bb.x0 (bbOf s d).x0, max bb.x1 (bbOf s d).x1,
                 min bb.y0 (bbOf s d).y0, max bb.y1 (bbOf s d).y1⟩
                (cx + u.ux) (cy + u.uy) (arcs ++ [bbOf s d]) := by
          simp only [setup_net_go]
          rw [hse, hd2]
        rw [heq, ih]
        rw [List.forall_mem_cons]
        constructor
        · intro hrest
          refine ⟨⟨?_, ?_⟩, hrest⟩
          · rw [hse]
            rfl
          · rw [hd2]
            rfl
        · exact fun h => h.2

theorem setup_net_go_arcs_length (bbOf : Nat → Nat → ABounds) (hasDrv : Bool)
    (srcw : Option Nat) (users : List UserIn) :
    ∀ bb cx cy arcs v,
      setup_net_go bbOf hasDrv srcw users bb cx cy arcs = .ok v →
      v.2.2.2.length = arcs.length + users.length := by
  induction users with
  | nil =>
    intro bb cx cy arcs v hv
    simp only [setup_net_go] at hv
    obtain rfl : (bb, cx, cy, arcs) = v := by injection hv
    simp
  | cons u rest ih =>
    intro bb cx cy arcs v hv
    rcases hse : (if hasDrv then srcw else u.dst_wire) with _ | s
    · simp only [setup_net_go] at hv
      rw [hse] at hv
      simp at hv
    · rcases hd2 : u.dst_wire with _ | d
      · simp only [setup_net_go] at hv
        rw [hse] at hv
        rw [hd2] at hv
        simp at hv
      · have heq : setup_net_go bbOf hasDrv srcw (u :: rest) bb cx cy arcs
            = setup_net_go bbOf hasDrv srcw rest
                ⟨min bb.x0 (bbOf s d).x0, max bb.x1 (bbOf s d).x1,
                 min bb.y0 (bbOf s d).y0, max bb.y1 (bbOf s d).y1⟩
                (cx + u.ux) (cy + u.uy) (arcs ++ [bbOf s d]) := by
          simp only [setup_net_go]
          rw [hse, hd2]
        rw [heq] at hv
        have := ih _ _ _ _ v hv
        simp only [List.length_append, List.length_cons, List.length_nil] at this ⊢
        omega

/-- Counterexample to claim C9 as stated: a driven net whose driver port
has no wire but which has no users passes `setup_nets` without any error
(the missing-wire checks live inside the loop over users). -/
theorem setup_net_missing_driver_ok :
    (NetIn.mk true none 0 0 []).has_driver = true ∧
    (NetIn.mk true none 0 0 []).src_wire = none ∧
    exceptOk (setup_net (fun _ _ => ⟨0, 0, 0, 0⟩) (NetIn.mk true none 0 0 [])) = true :=
  ⟨rfl, rfl, rfl⟩

/-- Claim C9, amended: `setup_nets` fails on a net iff some user pin has
a missing effective source wire (the sink wire when the net is undriven)
or a missing sink wire — in particular a missing driver wire is only
detected when the net has at least one user; on success it populates one
`PerArcData` per user and a `PerNetData` with `hpwl >= 1`. -/
theorem setup_net_spec (bbOf : Nat → Nat → ABounds) (ni : NetIn) :
    (exceptOk (setup_net bbOf ni) = true ↔
      ∀ u ∈ ni.users,
        (if ni.has_driver then ni.src_wire else u.dst_wire).isSome = true ∧
        u.dst_wire.isSome = true) ∧
    (∀ r, setup_net bbOf ni = .ok r →
      1 ≤ r.hpwl ∧ r.arcs.length = ni.users.length) := by
  constructor
  · rw [← setup_net_go_ok_iff bbOf ni.has_driver ni.src_wire ni.users
      ⟨cINT_MAX, cINT_MIN, cINT_MAX, cINT_MIN⟩
      (if ni.has_driver then ni.dx else 0) (if ni.has_driver then ni.dy else 0) []]
    rcases hgo : setup_net_go bbOf ni.has_driver ni.src_wire ni.users
        ⟨cINT_MAX, cINT_MIN, cINT_MAX, cINT_MIN⟩
        (if ni.has_driver then ni.dx else 0)
        (if ni.has_driver then ni.dy else 0) [] with e | v
    · simp [setup_net, hgo, exceptOk]
    · obtain ⟨bb2, cx2, cy2, arcs2⟩ := v
      simp [setup_net, hgo, exceptOk]
  · intro r hr
    rcases hgo : setup_net_go bbOf ni.has_driver ni.src_wire ni.users
        ⟨cINT_MAX, cINT_MIN, cINT_MAX, cINT_MIN⟩
        (if ni.has_driver then ni.dx else 0)
        (if ni.has_driver then ni.dy else 0) [] with e | v
    · simp only [setup_net, hgo] at hr
      exact Except.noConfusion hr
    · obtain ⟨bb2, cx2, cy2, arcs2⟩ := v
      simp only [setup_net, hgo] at hr
      have hlen := setup_net_go_arcs_length bbOf ni.has_driver ni.src_wire ni.users
        _ _ _ _ _ hgo
      injection hr with h
      subst h
      refine ⟨le_max_right _ _, ?_⟩
      simpa using hlen

/-- Witness for C9 (amended): a one-user net with both wires present
passes and gets one arc with `hpwl >= 1`. -/
theorem setup_net_spec_witness :
    exceptOk (setup_net (fun _ _ => ⟨0, 1, 0, 1⟩)
      (NetIn.mk true (some 4) 1 1 [⟨some 5, 3, 3⟩])) = true := by
  exact (setup_net_spec (fun _ _ => ⟨0, 1, 0, 1⟩)
    (NetIn.mk true (some 4) 1 1 [⟨some 5, 3, 3⟩])).1.mpr
    (by intro u hu; simp only [List.mem_singleton] at hu; subst hu; exact ⟨rfl, rfl⟩)

/-! ### Claim C4: the pre-routed-sink early return of `route_net` -/

/-- Claim C4 (code-bug exhibit): when `route_net` meets an unrouted arc
whose sink wire is pre-bound with strength above STRONG, the source
executes `return ARC_SUCCESS;` inside a function declared `bool`; the
enumerator value 0 converts to `false`, so the net is reported as failed
even though the intent (and the spec) is boolean success, while the arc
is indeed kept un-ripped. -/
theorem route_net_preroute_bug :
    cppBoolOfArc .ARC_SUCCESS = false ∧
    route_net_sched [(0, STRENGTH_FIXED)] [(false, 0)] [] 0 = (some false, []) :=
  ⟨rfl, rfl⟩

/-! ### Claim C3: forward A* iteration budget and RETRY_WITHOUT_BB -/

theorem popMin_isSome (q : List QW) (h : q ≠ []) : (popMin q).isSome := by
  cases q with
  | nil => exact absurd rfl h
  | cons x xs =>
    rcases hp : popMin xs with _ | p
    · simp [popMin, hp]
    · obtain ⟨y, ys⟩ := p
      simp only [popMin, hp]
      split <;> simp

theorem lookupV_map_upd_ne (vs : List (Nat × WScore × Option Nat)) (k : Nat)
    (v : WScore × Option Nat) (k2 : Nat) (hne : k ≠ k2) :
    lookupV (vs.map (fun e => if e.1 = k then (k, v) else e)) k2 = lookupV vs k2 := by
  induction vs with
  | nil => rfl
  | cons e rest ih =>
    by_cases hek : e.1 = k
    · have hne2 : ¬ (k = k2) := hne
      simp only [List.map_cons, if_pos hek, lookupV, if_neg hne2, ih]
      rw [if_neg (hek ▸ hne2)]
    · by_cases he2 : e.1 = k2
      · simp only [List.map_cons, if_neg hek, lookupV, if_pos he2]
      · simp only [List.map_cons, if_neg hek, lookupV, if_neg he2, ih]

theorem lookupV_append_single_ne (vs : List (Nat × WScore × Option Nat)) (k : Nat)
    (v : WScore × Option Nat) (k2 : Nat) (hne : k ≠ k2) :
    lookupV (vs ++ [(k, v)]) k2 = lookupV vs k2 := by
  induction vs with
  | nil => simp [lookupV, hne]
  | cons e rest ih =>
    by_cases he2 : e.1 = k2
    · simp only [List.cons_append, lookupV, if_pos he2]
    · simp only [List.cons_append, lookupV, if_neg he2]
      exact ih

theorem lookupV_setV_ne (vs : List (Nat × WScore × Option Nat)) (k : Nat)
    (v : WScore × Option Nat) (k2 : Nat) (hne : k ≠ k2) :
    lookupV (setV vs k v) k2 = lookupV vs k2 := by
  unfold setV
  split
  · exact lookupV_map_upd_ne vs k v k2 hne
  · exact lookupV_append_single_ne vs k v k2 hne

theorem fwd_step_pip_all (E : REnv) (curr : QW) (st : FwdState) (dh : Nat) :
    (fwd_step_pip E curr st dh).iter = st.iter ∧
    (fwd_step_pip E curr st dh).toexplore ≤ st.toexplore ∧
    (∀ w ∈ (fwd_step_pip E curr st dh).pushed, w ∈ st.pushed ∨ ¬ reservedOther E w) ∧
    ((lookupV st.visited E.dst ≠ none → st.toexplore ≤ st.iter + 5) →
      lookupV (fwd_step_pip E curr st dh).visited E.dst ≠ none →
      (fwd_step_pip E curr st dh).toexplore ≤ (fwd_step_pip E curr st dh).iter + 5) := by
  simp only [fwd_step_pip]
  split_ifs with h1 h2 h3 h4 h5 h6 h7 <;>
    try exact ⟨rfl, le_rfl, fun w hw => Or.inl hw, fun h => h⟩
  · -- push branch, the pushed wire is the sink: budget clamped
    refine ⟨rfl, min_le_left _ _, ?_, ?_⟩
    · intro w hw
      rcases List.mem_append.mp hw with hw | hw
      · exact Or.inl hw
      · simp only [List.mem_singleton] at hw
        subst hw
        exact Or.inr h4
    · intro h hv
      exact min_le_right _ _
  · -- push branch, a non-sink wire: visited at the sink unchanged
    refine ⟨rfl, le_rfl, ?_, ?_⟩
    · intro w hw
      rcases List.mem_append.mp hw with hw | hw
      · exact Or.inl hw
      · simp only [List.mem_singleton] at hw
        subst hw
        exact Or.inr h4
    · intro h hv
      rw [lookupV_setV_ne _ _ _ _ h7] at hv
      exact h hv

theorem fwd_fold_all (E : REnv) (curr : QW) (pips : List Nat) :
    ∀ st : FwdState,
    (pips.foldl (fwd_step_pip E curr) st).iter = st.iter ∧
    (pips.foldl (fwd_step_pip E curr) st).toexplore ≤ st.toexplore ∧
    (∀ w ∈ (pips.foldl (fwd_step_pip E curr) st).pushed,
      w ∈ st.pushed ∨ ¬ reservedOther E w) ∧
    ((lookupV st.visited E.dst ≠ none → st.toexplore ≤ st.iter + 5) →
      lookupV (pips.foldl (fwd_step_pip E curr) st).visited E.dst ≠ none →
      (pips.foldl (fwd_step_pip E curr) st).toexplore ≤
        (pips.foldl (fwd_step_pip E curr) st).iter + 5) := by
  induction pips with
  | nil => exact fun st => ⟨rfl, le_rfl, fun w hw => Or.inl hw, fun h => h⟩
  | cons dh rest ih =>
    intro st
    obtain ⟨hi1, ht1, hp1, hv1⟩ := fwd_step_pip_all E curr st dh
    obtain ⟨hi2, ht2, hp2, hv2⟩ := ih (fwd_step_pip E curr st dh)
    refine ⟨?_, ?_, ?_, ?_⟩
    · rw [List.foldl_cons, hi2, hi1]
    · rw [List.foldl_cons]
      exact le_trans ht2 ht1
    · intro w hw
      rw [List.foldl_cons] at hw
      rcases hp2 w hw with hmem | hok
      · exact hp1 w hmem
      · exact Or.inr hok
    · intro h hv
      rw [List.foldl_cons] at hv ⊢
      exact hv2 (hv1 h) hv

theorem fwd_iter_all (E : REnv) (st : FwdState) :
    (st.queue ≠ [] → (fwd_iter E st).iter = st.iter + 1) ∧
    (fwd_iter E st).toexplore ≤ st.toexplore ∧
    (∀ w ∈ (fwd_iter E st).pushed, w ∈ st.pushed ∨ ¬ reservedOther E w) ∧
    (lookupV st.visited E.dst = none →
      lookupV (fwd_iter E st).visited E.dst ≠ none →
      (fwd_iter E st).toexplore ≤ (fwd_iter E st).iter + 5) := by
  unfold fwd_iter
  rcases hp : popMin st.queue with _ | cr
  · refine ⟨?_, le_rfl, fun w hw => Or.inl hw, ?_⟩
    · intro hq
      have := popMin_isSome st.queue hq
      rw [hp] at this
      simp at this
    · intro h1 h2
      exact absurd h1 h2
  · obtain ⟨curr, rest⟩ := cr
    obtain ⟨hi, ht, hpsh, hv⟩ := fwd_fold_all E curr (E.dev.pipsDownhill curr.wire)
      { st with queue := rest, iter := st.iter + 1 }
    refine ⟨fun _ => hi, ht, hpsh, ?_⟩
    intro hnone hsome
    exact hv (fun hc => absurd hnone hc) hsome

theorem fwd_loop_aux_all (E : REnv) :
    ∀ (fuel : Nat) (st : FwdState) (B : Int), st.iter ≤ B → st.toexplore ≤ B →
    (fwd_loop_aux E fuel st).iter ≤ B ∧
    (∀ w ∈ (fwd_loop_aux E fuel st).pushed, w ∈ st.pushed ∨ ¬ reservedOther E w) := by
  intro fuel
  induction fuel with
  | zero => exact fun st B h1 h2 => ⟨h1, fun w hw => Or.inl hw⟩
  | succ fuel ih =>
    intro st B h1 h2
    unfold fwd_loop_aux
    split
    · rename_i hcond
      obtain ⟨hi, ht, hpsh, -⟩ := fwd_iter_all E st
      have hi2 := hi hcond.1
      obtain ⟨ha, hb⟩ := ih (fwd_iter E st) B (by omega) (le_trans ht h2)
      refine ⟨ha, fun w hw => ?_⟩
      rcases hb w hw with hmem | hok
      · exact hpsh w hmem
      · exact Or.inr hok
    · exact ⟨h1, fun w hw => Or.inl hw⟩

/-- Claim C3: with `is_bb = true`, the forward A* loop runs at most
`25000 * max(1, bb width + bb height)` iterations; when the sink is first
recorded in `visited` the remaining budget drops to at most the current
iteration count plus 5; and if the loop ends with the sink unvisited,
`route_arc` returns `ARC_RETRY_WITHOUT_BB`. -/
theorem route_arc_fwd_spec (E : REnv) :
    (route_arc_fwd E).1.iter
      ≤ 25000 * max 1 ((E.bbx1 - E.bbx0) + (E.bby1 - E.bby0)) ∧
    (∀ st : FwdState, lookupV st.visited E.dst = none →
      lookupV (fwd_iter E st).visited E.dst ≠ none →
      (fwd_iter E st).toexplore ≤ (fwd_iter E st).iter + 5) ∧
    (lookupV (route_arc_fwd E).1.visited E.dst = none →
      (route_arc_fwd E).2 = .ARC_RETRY_WITHOUT_BB) := by
  refine ⟨?_, ?_, ?_⟩
  · have hb : (0 : Int) ≤ fwd_budget E := by
      have h1 : (1 : Int) ≤ max 1 ((E.bbx1 - E.bbx0) + (E.bby1 - E.bby0)) :=
        le_max_left _ _
      unfold fwd_budget
      nlinarith
    have h := (fwd_loop_aux_all E (fwd_budget E).toNat (fwd_init E) (fwd_budget E)
      (by simp only [fwd_init]; exact hb) (by simp [fwd_init])).1
    simpa [route_arc_fwd, fwd_budget] using h
  · intro st h1 h2
    exact (fwd_iter_all E st).2.2.2 h1 h2
  · intro h
    simp only [route_arc_fwd] at h ⊢
    rw [h]
    rfl

/-- Witness for C3 at the sample environment: with no downhill pips the
sink is never visited and the forward phase reports RETRY_WITHOUT_BB. -/
theorem route_arc_fwd_spec_witness :
    (route_arc_fwd sampleEnv).2 = .ARC_RETRY_WITHOUT_BB := by
  exact (route_arc_fwd_spec sampleEnv).2.2 (by decide)

/-! ### Claim C6: reserved wires and the search frontiers -/

theorem bwd_step_pip_pushed (E : REnv) (cpip : Option Nat) (s : BwdState) (uh : Nat) :
    ∀ w ∈ (bwd_step_pip E cpip s uh).pushed, w ∈ s.pushed ∨ ¬ reservedOther E w := by
  simp only [bwd_step_pip]
  split_ifs with h1 h2 h3 h4 h5 h6 <;>
    try exact fun w hw => Or.inl hw
  intro w hw
  rcases List.mem_append.mp hw with hw | hw
  · exact Or.inl hw
  · simp only [List.mem_singleton] at hw
    subst hw
    exact Or.inr h5

theorem bwd_fold_pushed (E : REnv) (cpip : Option Nat) (pips : List Nat) :
    ∀ s : BwdState,
    ∀ w ∈ (pips.foldl (bwd_step_pip E cpip) s).pushed,
      w ∈ s.pushed ∨ ¬ reservedOther E w := by
  induction pips with
  | nil => exact fun s w hw => Or.inl hw
  | cons uh rest ih =>
    intro s w hw
    rw [List.foldl_cons] at hw
    rcases ih (bwd_step_pip E cpip s uh) w hw with hmem | hok
    · exact bwd_step_pip_pushed E cpip s uh w hmem
    · exact Or.inr hok

theorem bwd_expand_pushed (E : REnv) (st : BwdState) (cursor : Nat) (cpip : Option Nat) :
    ∀ w ∈ (bwd_expand E st cursor cpip).pushed, w ∈ st.pushed ∨ ¬ reservedOther E w := by
  intro w hw
  simp only [bwd_expand] at hw
  split at hw
  · exact bwd_fold_pushed E cpip (E.dev.pipsUphill cursor) st w hw
  · exact bwd_fold_pushed E cpip (E.dev.pipsUphill cursor) st w hw

theorem bwd_iter_pushed (E : REnv) (mfuel : Nat) (st st2 : BwdState)
    (h : bwd_iter E mfuel st = some st2) :
    ∀ w ∈ st2.pushed, w ∈ st.pushed ∨ ¬ reservedOther E w := by
  intro w hw
  rcases hq : st.queue with _ | ⟨cursor, rest⟩
  · rw [bwd_iter, hq] at h
    obtain rfl : st = st2 := by injection h
    exact Or.inl hw
  · rw [bwd_iter, hq] at h
    dsimp only at h
    rcases hl : lookupNet (E.wires cursor).bound_nets E.netu with _ | rp
    · rw [hl] at h
      dsimp only at h
      obtain rfl : bwd_expand E { st with queue := rest } cursor none = st2 := by
        injection h
      exact bwd_expand_pushed E { st with queue := rest } cursor none w hw
    · rw [hl] at h
      dsimp only at h
      rcases hm : merge_check E mfuel cursor with _ | fc
      · rw [hm] at h
        exact Option.noConfusion h
      · rw [hm] at h
        dsimp only at h
        by_cases hcc : ¬ fc.1 = true ∧ fc.2 = E.src
        · rw [if_pos hcc] at h
          rcases hr : merge_record E mfuel cursor { st with queue := rest }.bpip
            with _ | bp2
          · rw [hr] at h
            exact Option.noConfusion h
          · rw [hr] at h
            dsimp only at h
            obtain rfl : ({ st with queue := rest, bpip := bp2, merged := true }
                : BwdState) = st2 := by injection h
            exact Or.inl hw
        · rw [if_neg hcc] at h
          obtain rfl : bwd_expand E { st with queue := rest } cursor rp.2 = st2 := by
            injection h
          exact bwd_expand_pushed E { st with queue := rest } cursor rp.2 w hw

theorem bwd_loop_pushed (E : REnv) (mfuel : Nat) :
    ∀ (ofuel : Nat) (st st2 : BwdState), bwd_loop E mfuel ofuel st = some st2 →
    ∀ w ∈ st2.pushed, w ∈ st.pushed ∨ ¬ reservedOther E w := by
  intro ofuel
  induction ofuel with
  | zero =>
    intro st st2 h w hw
    rw [bwd_loop] at h
    split at h
    · obtain rfl : st = st2 := by injection h
      exact Or.inl hw
    · exact Option.noConfusion h
  | succ ofuel ih =>
    intro st st2 h w hw
    rw [bwd_loop] at h
    split at h
    · obtain rfl : st = st2 := by injection h
      exact Or.inl hw
    · rcases hi : bwd_iter E mfuel st with _ | stm
      · rw [hi] at h
        exact Option.noConfusion h
      · rw [hi] at h
        rcases ih stm st2 h w hw with hmem | hok
        · exact bwd_iter_pushed E mfuel st stm hi w hmem
        · exact Or.inr hok

/-- Counterexample to claim C6 as stated: the backwards BFS seeds its
queue with the sink wire without any reservation check, so a sink wire
whose `reserved_net` names another net is enqueued anyway. -/
theorem route_arc_reserved_cex :
    reservedOther sampleEnv sampleEnv.dst ∧
    sampleEnv.dst ∈ pushedOf (route_arc_bwd sampleEnv 3 3) := by
  constructor
  · constructor <;> decide
  · decide

/-- Claim C6, amended: during `route_arc`, a wire reserved for another
net is never pushed into the backwards BFS queue or the forward A*
priority queue by the search loops; the only exceptions are the
unchecked seeds — the sink wire seeded into the backwards queue and the
source wire seeded into the forward queue. -/
theorem route_arc_reserved_spec (E : REnv) (mfuel ofuel : Nat) :
    (∀ w ∈ pushedOf (route_arc_bwd E mfuel ofuel), w = E.dst ∨ ¬ reservedOther E w) ∧
    (∀ w ∈ (route_arc_fwd E).1.pushed, w = E.src ∨ ¬ reservedOther E w) := by
  constructor
  · intro w hw
    rcases hb : route_arc_bwd E mfuel ofuel with _ | st2
    · rw [hb] at hw
      cases hw
    · rw [hb] at hw
      simp only [pushedOf] at hw
      rcases bwd_loop_pushed E mfuel ofuel _ st2 hb w hw with hmem | hok
      · simp only [List.mem_singleton] at hmem
        exact Or.inl hmem
      · exact Or.inr hok
  · intro w hw
    have h := (fwd_loop_aux_all E (fwd_budget E).toNat (fwd_init E) (fwd_budget E)
      (by simp only [fwd_init]
          have h1 : (1 : Int) ≤ max 1 ((E.bbx1 - E.bbx0) + (E.bby1 - E.bby0)) :=
            le_max_left _ _
          unfold fwd_budget
          nlinarith)
      (by simp [fwd_init])).2
    have hw2 : w ∈ (fwd_loop_aux E (fwd_budget E).toNat (fwd_init E)).pushed := hw
    rcases h w hw2 with hmem | hok
    · simp only [fwd_init, List.mem_singleton] at hmem
      exact Or.inl hmem
    · exact Or.inr hok

/-- Witness for C6 (amended): in the sample environment the only
non-seed wire the backwards BFS pushes, wire 1, is not reserved for
another net. -/
theorem route_arc_reserved_spec_witness :
    (1 : Nat) = sampleEnv.dst ∨ ¬ reservedOther sampleEnv 1 := by
  exact (route_arc_reserved_spec sampleEnv 3 3).1 1 (by decide)
